import Mathlib

/-!
Verification of the fuzzy movie-search core of `src/App.jsx`.

JS strings are modelled as `List Char`, JS numbers as `ℚ` (exact rationals;
float rounding is not modelled), and the one reachable `0/0 = NaN` in the
scorer is modelled explicitly with `Option ℚ` (`none` = NaN).
-/

namespace MoviesDB

/-- JS `s.toLowerCase()` (ASCII case folding, as `Char.toLower`). -/
def toLowerStr (s : List Char) : List Char := s.map Char.toLower

/-- JS `s.trim()`: drop whitespace at both ends. -/
def jsTrim (s : List Char) : List Char :=
  ((s.dropWhile Char.isWhitespace).reverse.dropWhile Char.isWhitespace).reverse

/-- JS `haystack.includes(needle)`: substring occurrence test. -/
def jsIncludes (haystack needle : List Char) : Bool :=
  needle.isPrefixOf haystack ||
    match haystack with
    | [] => false
    | _ :: t => jsIncludes t needle

/-- JS `s.split(sep)` for a one-character separator: `"".split(" ") = [""]`,
`" ".split(" ") = ["", ""]`, empty pieces are kept. -/
def jsSplit (sep : Char) : List Char → List (List Char)
  | [] => [[]]
  | c :: rest =>
      if c = sep then [] :: jsSplit sep rest
      else
        match jsSplit sep rest with
        | w :: ws => (c :: w) :: ws
        | [] => [[c]]

/-- JS `arr.slice(a, b)` for `0 ≤ a ≤ b`: elements with index in `[a, b)`. -/
def jsSlice (a b : Nat) (l : List α) : List α := (l.take b).drop a

/-- The fixed typo/alias table of `preprocessSearchTerm` (App.jsx lines 36-48). -/
def corrections : List (List Char × List Char) :=
  [("spiderman".toList, "spider-man".toList),
   ("xmen".toList, "x-men".toList),
   ("batman".toList, "batman".toList),
   ("superman".toList, "superman".toList),
   ("ironman".toList, "iron man".toList),
   ("kerete".toList, "karate".toList),
   ("kerate".toList, "karate".toList),
   ("karete".toList, "karate".toList),
   ("dimon".toList, "demon".toList),
   ("deamon".toList, "demon".toList),
   ("daemon".toList, "demon".toList)]

/-- `preprocessSearchTerm` (App.jsx lines 34-52): look up the lowercased,
trimmed term in the correction table; on a miss return the original term. -/
def preprocessSearchTerm (term : List Char) : List Char :=
  let lowerTerm := jsTrim (toLowerStr term)
  match corrections.find? (fun p => p.1 == lowerTerm) with
  | some p => p.2
  | none => term

/-- The character-substitution table of `generateSearchVariations`
(App.jsx lines 60-75).  The multi-character keys `ph`, `tion`, `sion` are in
the source object but the scan looks up single characters only, so they can
never be hit; they are kept here for fidelity. -/
def substitutions : List (List Char × List (List Char)) :=
  [(['i'], [['e'], ['a']]),
   (['e'], [['i'], ['a']]),
   (['a'], [['e'], ['i']]),
   (['o'], [['u'], ['a']]),
   (['u'], [['o'], ['i']]),
   (['y'], [['i'], ['e']]),
   (['c'], [['k'], ['s']]),
   (['k'], [['c'], ['c', 'k']]),
   (['s'], [['c'], ['z']]),
   (['z'], [['s']]),
   (['p', 'h'], [['f']]),
   (['f'], [['p', 'h']]),
   (['t', 'i', 'o', 'n'], [['s', 'i', 'o', 'n']]),
   (['s', 'i', 'o', 'n'], [['t', 'i', 'o', 'n']])]

/-- JS `substitutions[char]` for a single character `char` (`[]` when the key
is absent, modelling `undefined` guarding the inner loop). -/
def subsFor (c : Char) : List (List Char) :=
  match substitutions.find? (fun p => p.1 == [c]) with
  | some p => p.2
  | none => []

/-- Body of the inner loop of `generateSearchVariations` (App.jsx lines 81-87):
build the candidate with position `i` replaced by `substitute` and push it
unless it equals the lowercased term or was already produced. -/
def varStep (lowerTerm : List Char) (i : Nat) (vs : List (List Char))
    (substitute : List Char) : List (List Char) :=
  let variation := lowerTerm.take i ++ substitute ++ lowerTerm.drop (i + 1)
  if variation ≠ lowerTerm ∧ ¬ variation ∈ vs then vs ++ [variation] else vs

/-- One iteration of the outer loop of `generateSearchVariations` (App.jsx
lines 78-89): apply every substitute registered for the character at `i`. -/
def varScanAt (lowerTerm : List Char) (variations : List (List Char)) (i : Nat) :
    List (List Char) :=
  (subsFor (lowerTerm.getD i ' ')).foldl (varStep lowerTerm i) variations

/-- `generateSearchVariations` (App.jsx lines 55-92): start from `[term]` and
scan every index of the lowercased term. -/
def generateSearchVariations (term : List Char) : List (List Char) :=
  let lowerTerm := toLowerStr term
  (List.range lowerTerm.length).foldl (varScanAt lowerTerm) [term]

/-- Reference (head) recursion for Levenshtein distance, used to state and
prove properties of the dynamic program below. -/
def lev : List Char → List Char → Nat
  | [], ys => ys.length
  | _ :: xs, [] => xs.length + 1
  | x :: xs, y :: ys =>
      if x = y then lev xs ys
      else min (lev xs ys + 1) (min (lev (x :: xs) ys + 1) (lev xs (y :: ys) + 1))
termination_by a b => a.length + b.length

/-- Inner loop of `levenshteinDistance` (App.jsx lines 106-118): compute the
entries `matrix[i][1..]` of one row from the previous row (`pdiag :: prest`)
and the entry to the left (`left`), walking `str1`. -/
def levRowAux (c2 : Char) : List Char → List Nat → Nat → List Nat
  | x :: xs, pdiag :: prest, left =>
      let pj := prest.headD 0
      let cur := if c2 = x then pdiag
        else min (pdiag + 1) (min (left + 1) (pj + 1))
      cur :: levRowAux c2 xs prest cur
  | _, _, _ => []

/-- Outer loop of `levenshteinDistance`: one row per character of `str2`,
row `i` starting with `matrix[i][0] = i`. -/
def levLoop (str1 : List Char) : List Char → Nat → List Nat → List Nat
  | [], _, prev => prev
  | c2 :: rest, i, prev => levLoop str1 rest (i + 1) (i :: levRowAux c2 str1 prev i)

/-- `levenshteinDistance` (App.jsx lines 95-121): row-by-row dynamic program,
`matrix[0][j] = j`, `matrix[i][0] = i`, result `matrix[str2.length][str1.length]`. -/
def levenshteinDistance (str1 str2 : List Char) : Nat :=
  (levLoop str1 str2 1 (List.range (str1.length + 1))).getLastD 0

/-- The similarity ratio computed (twice, inline) in `calculateRelevanceScore`
(App.jsx lines 257-259 and 270-272): `(maxLen - distance) / maxLen`.
When both strings are empty this is `0 / 0`, which in JS is `NaN`; that case
is encoded as `none`. -/
def similarityRatio (a b : List Char) : Option ℚ :=
  let distance := levenshteinDistance a b
  let maxLen := Nat.max a.length b.length
  if maxLen = 0 then none
  else some (((maxLen : ℚ) - (distance : ℚ)) / (maxLen : ℚ))

/-- JS `text.indexOf(c, start)` (`-1` when absent). -/
def jsIndexOfFrom (text : List Char) (c : Char) (start : Nat) : Int :=
  match (text.drop start).findIdx? (fun x => x = c) with
  | some j => ((start + j : Nat) : Int)
  | none => -1

/-- Loop of `calculateFuzzyScore` (App.jsx lines 293-299): greedy ordered
character matching. -/
def fuzzyLoop (text : List Char) : List Char → Int → Nat → Nat
  | [], _, matchCount => matchCount
  | c :: rest, lastIndex, matchCount =>
      let index := jsIndexOfFrom text c (lastIndex + 1).toNat
      if lastIndex < index then fuzzyLoop text rest index (matchCount + 1)
      else fuzzyLoop text rest lastIndex matchCount

/-- Number of greedily matched characters of `query` inside `text`. -/
def fuzzyMatchCount (text query : List Char) : Nat := fuzzyLoop text query (-1) 0

/-- `calculateFuzzyScore` (App.jsx lines 289-302): `matchCount / query.length`.
(For the empty query this is `0/0`; the caller's result is modelled as `none`
in that case, see `calculateRelevanceScore`.) -/
def calculateFuzzyScore (text query : List Char) : ℚ :=
  (fuzzyMatchCount text query : ℚ) / (query.length : ℚ)

/-- A catalog item as used by the scorer: `id`, required `title`, optional
`overview`, `vote_average`, `vote_count`. -/
structure Movie where
  id : Nat
  title : List Char
  overview : Option (List Char)
  vote_average : Option ℚ
  vote_count : Option ℕ
deriving DecidableEq

/-- The `bestWordMatch` accumulation of App.jsx lines 251-267: over all pairs
of a title word and a query word (split on single spaces), take the maximum of
`similarity * 60` over the pairs whose similarity exceeds the 0.6 threshold
(a NaN similarity, `none`, fails the threshold test, as in JS). -/
def bestWordScore (titleLower queryLower : List Char) : ℚ :=
  (jsSplit ' ' titleLower).foldl (fun acc titleWord =>
    (jsSplit ' ' queryLower).foldl (fun acc2 queryWord =>
      match similarityRatio titleWord queryWord with
      | some sim => if (3 : ℚ) / 5 < sim then max acc2 (sim * 60) else acc2
      | none => acc2) acc) 0

/-- The whole-title similarity bonus of App.jsx lines 269-276: `similarity * 40`
when the similarity exceeds 0.5, else nothing (NaN fails the test). -/
def titleSimScore (titleLower queryLower : List Char) : ℚ :=
  match similarityRatio titleLower queryLower with
  | some sim => if (1 : ℚ) / 2 < sim then sim * 40 else 0
  | none => 0

/-- The popularity boost of App.jsx lines 281-283:
`(vote_average || 0) * 1 + min((vote_count || 0) / 1000, 5)`. -/
def popularityScore (movie : Movie) : ℚ :=
  movie.vote_average.getD 0 * 1 + min ((movie.vote_count.getD 0 : ℚ) / 1000) 5

/-- `calculateRelevanceScore` (App.jsx lines 231-286).  Result `none` encodes
the JS value `NaN`, which arises exactly when the query is empty (then
`calculateFuzzyScore` divides by zero); every other division is guarded by a
`>`-comparison, which is false on NaN, exactly as encoded via
`similarityRatio = none`. -/
def calculateRelevanceScore (movie : Movie) (query : List Char) : Option ℚ :=
  if (toLowerStr query).length = 0 then none
  else some (
    (if toLowerStr movie.title = toLowerStr query then (100 : ℚ) else 0) +
    (if jsIncludes (toLowerStr movie.title) (toLowerStr query) then (80 : ℚ) else 0) +
    (if (toLowerStr query).isPrefixOf (toLowerStr movie.title) then (70 : ℚ) else 0) +
    (if jsIncludes (toLowerStr (movie.overview.getD [])) (toLowerStr query)
      then (30 : ℚ) else 0) +
    bestWordScore (toLowerStr movie.title) (toLowerStr query) +
    titleSimScore (toLowerStr movie.title) (toLowerStr query) +
    calculateFuzzyScore (toLowerStr movie.title) (toLowerStr query) * 20 +
    popularityScore movie)

/-- `calculateRelevanceScore` as invoked on a raw JS object all of whose
fields may be absent: App.jsx line 233 reads `movie.title.toLowerCase()` with
no default, so an absent title faults with a TypeError, while `overview`
(line 234), `vote_average` and `vote_count` (lines 282-283) are defaulted. -/
def calculateRelevanceScoreJs (title overview : Option (List Char))
    (voteAvg : Option ℚ) (voteCnt : Option ℕ) (query : List Char) :
    Except String (Option ℚ) :=
  match title with
  | none => .error "TypeError: cannot read toLowerCase of undefined"
  | some t => .ok (calculateRelevanceScore ⟨0, t, overview, voteAvg, voteCnt⟩ query)

/-- Outcome of one `fetch`: either the promise rejects (transport/network
error) or it resolves to a response with a status flag `ok` and a parsed
body whose `results` field may be absent. -/
inductive FetchResult where
  | transport
  | resp (ok : Bool) (results : Option (List Movie))
deriving DecidableEq

/-- Whether the `fetch` promise rejected (this makes `Promise.all` reject). -/
def FetchResult.isTransportError : FetchResult → Bool
  | .transport => true
  | _ => false

/-- Non-success HTTP status: the promise resolved but `response.ok` is false. -/
def FetchResult.isStatusFailure : FetchResult → Bool
  | .resp false _ => true
  | _ => false

/-- The query strings of the sub-request batch built in `fetchMovies`
(App.jsx lines 136-175): the preprocessed query, `searchVariations.slice(1, 4)`,
the single words when the preprocessed query contains a space, and its first
three characters.  (URL construction / encoding is not modelled.) -/
def searchRequests (query : List Char) : List (List Char) :=
  let processedQuery := preprocessSearchTerm query
  let searchVariations := generateSearchVariations processedQuery
  [processedQuery] ++
    jsSlice 1 4 searchVariations ++
    (if processedQuery.contains ' ' then jsSplit ' ' processedQuery else []) ++
    [processedQuery.take 3]

/-- One step of the accumulation loop of App.jsx lines 179-186: append the
`results` of a response with a success status and a present item list; skip
everything else. -/
def gatherStep (allResults : List Movie) : FetchResult → List Movie
  | .resp true (some results) => allResults ++ results
  | _ => allResults

/-- The accumulation loop of App.jsx lines 179-186, in dispatch order. -/
def gatherResults (responses : List FetchResult) : List Movie :=
  responses.foldl gatherStep []

/-- The dedup filter of App.jsx lines 189-192:
`allResults.filter((movie, index, self) => index === self.findIndex(m => m.id === movie.id))`,
walking `rest` (the part of `self` from position `index` on). -/
def dedupByIdAux (self : List Movie) : Nat → List Movie → List Movie
  | _, [] => []
  | index, movie :: rest =>
      if self.findIdx (fun m => m.id == movie.id) = index then
        movie :: dedupByIdAux self (index + 1) rest
      else dedupByIdAux self (index + 1) rest

/-- Stable dedup by `id`, keeping first occurrences (App.jsx lines 189-192). -/
def dedupById (allResults : List Movie) : List Movie := dedupByIdAux allResults 0 allResults

/-- The sort comparator of App.jsx line 202, `(a, b) => b.relevanceScore - a.relevanceScore`:
`a` may be placed before `b` exactly when the comparator value is `≤ 0`, i.e.
`b.relevanceScore ≤ a.relevanceScore`. -/
def scoreGE (a b : Movie × ℚ) : Prop := b.2 ≤ a.2

instance : DecidableRel scoreGE := fun a b => inferInstanceAs (Decidable (b.2 ≤ a.2))

instance : IsTotal (Movie × ℚ) scoreGE := ⟨fun a b => le_total b.2 a.2⟩

instance : IsTrans (Movie × ℚ) scoreGE := ⟨fun _ _ _ h1 h2 => le_trans h2 h1⟩

/-- Scoring, sorting and truncation of App.jsx lines 195-203, applied to the
deduplicated accumulation of the given responses.  The attached score uses the
original raw query; in the non-empty-query branch the query is non-empty, so
`calculateRelevanceScore` is never `none` (NaN) and `getD 0` is never taken.
`Array.prototype.sort` with a consistent comparator is modelled by a stable
comparator-consistent sort (insertion sort). -/
def rankedResults (query : List Char) (responses : List FetchResult) : List (Movie × ℚ) :=
  (((dedupById (gatherResults responses)).map
      (fun movie => (movie, (calculateRelevanceScore movie query).getD 0))).insertionSort
    scoreGE).take 20

/-- Result of the counting collaborator call. -/
inductive CounterResult where
  | recorded
  | failureLogged
deriving DecidableEq

/-- Modelled from the spec: `updateSearchCount` lives in `appwrite.js`, which
is not under `src/`; per the spec ("best-effort, failures must not propagate
to the caller" and "`CounterRecordError` — always swallowed; logged only,
never surfaced") it catches its own failures internally, only logging them,
so the call made by `fetchMovies` never throws. -/
def updateSearchCount (counterFails : Bool) (_query : List Char) (_top : Movie × ℚ) :
    CounterResult :=
  if counterFails then .failureLogged else .recorded

/-- The observable UI outcome of one `fetchMovies` invocation: either the
catch block ran (`errorMessage` set, movie list untouched), or the movie list
was set to the ranked search results (with attached scores), or to the raw
discover results (unscored).  `fetchMovies` returns it together with the
result of the counting collaborator call, when one was made. -/
inductive SearchOutcome where
  | failure (message : String)
  | searchResults (list : List (Movie × ℚ))
  | discoverResults (list : List Movie)
deriving DecidableEq

/-- The error message set by the catch block (App.jsx line 224). -/
def errorText : String := "Error fetching movies. Please try again later."

/-- The empty-query branch of `fetchMovies` (App.jsx lines 210-221): one
discover request; a rejection or a non-success status throws into the catch
block, a success delivers `data.results || []` unscored. -/
def discoverOutcome : FetchResult → SearchOutcome × Option CounterResult
  | .transport => (.failure errorText, none)
  | .resp ok results =>
      if ok then (.discoverResults (results.getD []), none)
      else (.failure errorText, none)

/-- The conditional counter call of App.jsx lines 207-209: report query and
top-ranked item only when the sorted result list is non-empty. -/
def counterCall (counterFails : Bool) (query : List Char) :
    List (Movie × ℚ) → Option CounterResult
  | [] => none
  | top :: _ => some (updateSearchCount counterFails query top)

/-- `fetchMovies` (App.jsx lines 123-228).  `env` gives the settled outcome of
the sub-request for each query string; `discoverResp` the outcome of the
discover request of the empty-query branch; `counterFails` whether the
counting collaborator call fails internally.  `Promise.all` rejects as soon
as any sub-request rejects at transport level, which the catch block turns
into the error outcome; non-success statuses are merely skipped. -/
def fetchMovies (query : List Char) (env : List Char → FetchResult)
    (discoverResp : FetchResult) (counterFails : Bool) :
    SearchOutcome × Option CounterResult :=
  if query = [] then discoverOutcome discoverResp
  else
    if ((searchRequests query).map env).any FetchResult.isTransportError then
      (.failure errorText, none)
    else
      (.searchResults (rankedResults query ((searchRequests query).map env)),
        counterCall counterFails query
          (rankedResults query ((searchRequests query).map env)))

/-! ### Correctness of the Levenshtein dynamic program -/

theorem lev_nil (ys : List Char) : lev [] ys = ys.length := by
  cases ys <;> simp [lev]

theorem lev_cons_nil (x : Char) (xs : List Char) : lev (x :: xs) [] = xs.length + 1 := by
  simp [lev]

theorem lev_nil_right (s : List Char) : lev s [] = s.length := by
  cases s
  · simp [lev_nil]
  · simp [lev_cons_nil]

theorem lev_cons_cons (x y : Char) (xs ys : List Char) :
    lev (x :: xs) (y :: ys) =
      if x = y then lev xs ys
      else min (lev xs ys + 1)
        (min (lev (x :: xs) ys + 1) (lev xs (y :: ys) + 1)) := by
  simp [lev]

/-- The intended contents of one DP row: walking the remaining part `l` of
`str1`, the column strings grow by consing the consumed characters onto `s`,
and every entry is the `lev`-distance of the column string to `r2` (the
reversed consumed prefix of `str2`). -/
def rowFrom (r2 s : List Char) : List Char → List Nat
  | [] => [lev s r2]
  | x :: xs => lev s r2 :: rowFrom r2 (x :: s) xs

theorem rowFrom_headD (r2 s : List Char) (l : List Char) :
    (rowFrom r2 s l).headD 0 = lev s r2 := by
  cases l <;> rfl

theorem levRowAux_rowFrom (c2 : Char) (r2 : List Char) :
    ∀ (l s : List Char),
      lev s (c2 :: r2) :: levRowAux c2 l (rowFrom r2 s l) (lev s (c2 :: r2)) =
        rowFrom (c2 :: r2) s l := by
  intro l
  induction l with
  | nil => intro s; rfl
  | cons x xs ih =>
      intro s
      have hcur : (if c2 = x then lev s r2
          else min (lev s r2 + 1)
            (min (lev s (c2 :: r2) + 1) ((rowFrom r2 (x :: s) xs).headD 0 + 1))) =
          lev (x :: s) (c2 :: r2) := by
        rw [rowFrom_headD, lev_cons_cons]
        by_cases h : x = c2
        · simp [h]
        · have h' : ¬ c2 = x := fun hc => h hc.symm
          simp only [if_neg h, if_neg h']
          rw [min_comm (lev (x :: s) r2 + 1) (lev s (c2 :: r2) + 1)]
      calc lev s (c2 :: r2) ::
            levRowAux c2 (x :: xs) (rowFrom r2 s (x :: xs)) (lev s (c2 :: r2))
          = lev s (c2 :: r2) :: lev (x :: s) (c2 :: r2) ::
              levRowAux c2 xs (rowFrom r2 (x :: s) xs) (lev (x :: s) (c2 :: r2)) := by
            show _ :: _ :: levRowAux c2 xs (rowFrom r2 (x :: s) xs) _ =
              _ :: _ :: levRowAux c2 xs (rowFrom r2 (x :: s) xs) _
            rw [hcur]
        _ = lev s (c2 :: r2) :: rowFrom (c2 :: r2) (x :: s) xs := by rw [ih (x :: s)]
        _ = rowFrom (c2 :: r2) s (x :: xs) := rfl

theorem levLoop_rowFrom (str1 : List Char) :
    ∀ (str2rest r2 : List Char),
      levLoop str1 str2rest (r2.length + 1) (rowFrom r2 [] str1) =
        rowFrom (str2rest.reverse ++ r2) [] str1 := by
  intro str2rest
  induction str2rest with
  | nil => intro r2; simp [levLoop]
  | cons c2 rest ih =>
      intro r2
      show levLoop str1 rest (r2.length + 1 + 1)
          ((r2.length + 1) :: levRowAux c2 str1 (rowFrom r2 [] str1) (r2.length + 1)) = _
      have hlen : r2.length + 1 = lev [] (c2 :: r2) := by
        rw [lev_nil]; rfl
      have hrow : (r2.length + 1) ::
          levRowAux c2 str1 (rowFrom r2 [] str1) (r2.length + 1) =
          rowFrom (c2 :: r2) [] str1 := by
        rw [hlen]; exact levRowAux_rowFrom c2 r2 str1 []
      rw [hrow]
      have hih := ih (c2 :: r2)
      simp only [List.length_cons] at hih
      rw [hih]
      have hl : (c2 :: rest).reverse ++ r2 = rest.reverse ++ c2 :: r2 := by
        simp
      rw [hl]

theorem rowFrom_nil_eq_range' :
    ∀ (l s : List Char), rowFrom [] s l = List.range' s.length (l.length + 1) := by
  intro l
  induction l with
  | nil =>
      intro s
      show [lev s []] = List.range' s.length 1
      rw [lev_nil_right]
      rfl
  | cons x xs ih =>
      intro s
      show lev s [] :: rowFrom [] (x :: s) xs = _
      rw [lev_nil_right, ih (x :: s), List.length_cons, List.range'_succ]
      rfl

theorem rowFrom_getLastD (r2 : List Char) :
    ∀ (l s : List Char) (d : Nat),
      (rowFrom r2 s l).getLastD d = lev (l.reverse ++ s) r2 := by
  intro l
  induction l with
  | nil => intro s d; simp [rowFrom]
  | cons x xs ih =>
      intro s d
      show (lev s r2 :: rowFrom r2 (x :: s) xs).getLastD d = _
      rw [List.getLastD_cons, ih (x :: s) (lev s r2)]
      simp

/-- The source's dynamic program computes the edit distance of the reversed
inputs under the reference recursion (and reversal does not change edit
distance, as the symmetry and self-distance results below never need it). -/
theorem levenshteinDistance_eq_lev (str1 str2 : List Char) :
    levenshteinDistance str1 str2 = lev str1.reverse str2.reverse := by
  show (levLoop str1 str2 1 (List.range (str1.length + 1))).getLastD 0 = _
  have h0 : List.range (str1.length + 1) = rowFrom [] [] str1 := by
    rw [rowFrom_nil_eq_range', List.range_eq_range']
    rfl
  rw [h0]
  have := levLoop_rowFrom str1 str2 []
  simp only [List.length_nil, List.append_nil] at this
  rw [this, rowFrom_getLastD]
  simp

theorem lev_self : ∀ s : List Char, lev s s = 0 := by
  intro s
  induction s with
  | nil => rw [lev_nil]; rfl
  | cons x xs ih => rw [lev_cons_cons, if_pos rfl, ih]

theorem lev_comm : ∀ (a b : List Char), lev a b = lev b a
  | [], [] => rfl
  | [], y :: ys => by rw [lev_nil, lev_nil_right]
  | x :: xs, [] => by rw [lev_nil, lev_nil_right]
  | x :: xs, y :: ys => by
      rw [lev_cons_cons, lev_cons_cons]
      by_cases h : x = y
      · rw [if_pos h, if_pos h.symm, lev_comm xs ys]
      · have h' : ¬ y = x := fun hc => h hc.symm
        rw [if_neg h, if_neg h', lev_comm xs ys, lev_comm (x :: xs) ys, lev_comm xs (y :: ys)]
        rw [min_comm (lev ys (x :: xs) + 1) (lev (y :: ys) xs + 1)]
termination_by a b => a.length + b.length

/-- C10: the Levenshtein edit-distance function satisfies
`levenshteinDistance s s = 0` for every string `s`, and is symmetric:
`levenshteinDistance a b = levenshteinDistance b a` for all `a`, `b`. -/
theorem levenshteinDistance_self_eq_zero_and_comm :
    (∀ s : List Char, levenshteinDistance s s = 0) ∧
    (∀ a b : List Char, levenshteinDistance a b = levenshteinDistance b a) := by
  constructor
  · intro s
    rw [levenshteinDistance_eq_lev, lev_self]
  · intro a b
    rw [levenshteinDistance_eq_lev, levenshteinDistance_eq_lev, lev_comm]

/-! ### The dedup filter keeps exactly the first occurrence of each id -/

theorem findIdx_append_le {α : Type} (p : α → Bool) (a : α) (ha : p a = true) :
    ∀ (pre rest : List α), (pre ++ a :: rest).findIdx p ≤ pre.length := by
  intro pre
  induction pre with
  | nil => intro rest; simp [List.findIdx_cons, ha]
  | cons q pre' ih =>
      intro rest
      rw [List.cons_append, List.findIdx_cons]
      cases hq : p q
      · simpa using Nat.succ_le_succ (ih rest)
      · simp

theorem find?_of_findIdx_append {α : Type} (p : α → Bool) (a : α) :
    ∀ (pre rest : List α), (pre ++ a :: rest).findIdx p = pre.length →
      (pre ++ a :: rest).find? p = some a := by
  intro pre
  induction pre with
  | nil =>
      intro rest h
      rw [List.nil_append, List.findIdx_cons] at h
      cases ha : p a
      · rw [ha] at h; simp at h
      · simp [List.find?_cons, ha]
  | cons q pre' ih =>
      intro rest h
      rw [List.cons_append, List.findIdx_cons] at h
      cases hq : p q
      · rw [hq] at h
        simp only [cond_false, List.length_cons] at h
        rw [List.cons_append, List.find?_cons, hq]
        exact ih rest (Nat.succ_injective h)
      · rw [hq] at h; simp at h

theorem dedupByIdAux_sublist (self : List Movie) :
    ∀ (rest : List Movie) (i : Nat), List.Sublist (dedupByIdAux self i rest) rest := by
  intro rest
  induction rest with
  | nil => intro i; simp [dedupByIdAux]
  | cons a rest' ih =>
      intro i
      rw [dedupByIdAux]
      by_cases h : self.findIdx (fun m => m.id == a.id) = i
      · rw [if_pos h]; exact (ih (i + 1)).cons₂ a
      · rw [if_neg h]; exact (ih (i + 1)).cons a

theorem dedupByIdAux_mem_le (self : List Movie) :
    ∀ (rest : List Movie) (i : Nat) (m : Movie),
      m ∈ dedupByIdAux self i rest → i ≤ self.findIdx (fun x => x.id == m.id) := by
  intro rest
  induction rest with
  | nil => intro i m h; simp [dedupByIdAux] at h
  | cons a rest' ih =>
      intro i m h
      rw [dedupByIdAux] at h
      by_cases hk : self.findIdx (fun x => x.id == a.id) = i
      · rw [if_pos hk] at h
        rcases List.mem_cons.mp h with rfl | h'
        · exact Nat.le_of_eq hk.symm
        · exact Nat.le_of_succ_le (ih (i + 1) m h')
      · rw [if_neg hk] at h
        exact Nat.le_of_succ_le (ih (i + 1) m h)

theorem dedupByIdAux_mem_first (self : List Movie) :
    ∀ (rest pre : List Movie), self = pre ++ rest →
      ∀ m ∈ dedupByIdAux self pre.length rest,
        self.find? (fun x => x.id == m.id) = some m := by
  intro rest
  induction rest with
  | nil => intro pre _ m h; simp [dedupByIdAux] at h
  | cons a rest' ih =>
      intro pre hself m h
      rw [dedupByIdAux] at h
      by_cases hk : self.findIdx (fun x => x.id == a.id) = pre.length
      · rw [if_pos hk] at h
        rcases List.mem_cons.mp h with rfl | h'
        · rw [hself] at hk ⊢
          exact find?_of_findIdx_append _ m pre rest' hk
        · have hlen : (pre ++ [a]).length = pre.length + 1 := by simp
          have := ih (pre ++ [a]) (by simpa using hself) m (by rw [hlen]; exact h')
          exact this
      · rw [if_neg hk] at h
        have hlen : (pre ++ [a]).length = pre.length + 1 := by simp
        exact ih (pre ++ [a]) (by simpa using hself) m (by rw [hlen]; exact h)

theorem dedupByIdAux_pairwise (self : List Movie) :
    ∀ (rest : List Movie) (i : Nat),
      (dedupByIdAux self i rest).Pairwise (fun a b => a.id ≠ b.id) := by
  intro rest
  induction rest with
  | nil => intro i; simp [dedupByIdAux]
  | cons a rest' ih =>
      intro i
      rw [dedupByIdAux]
      by_cases hk : self.findIdx (fun x => x.id == a.id) = i
      · rw [if_pos hk]
        refine List.Pairwise.cons ?_ (ih (i + 1))
        intro m' hm' heq
        have hle := dedupByIdAux_mem_le self rest' (i + 1) m' hm'
        have hfun : (fun x : Movie => x.id == m'.id) = (fun x : Movie => x.id == a.id) := by
          funext x; rw [heq]
        rw [hfun, hk] at hle
        omega
      · rw [if_neg hk]; exact ih (i + 1)

theorem dedupByIdAux_complete (self : List Movie) :
    ∀ (rest pre : List Movie), self = pre ++ rest →
      ∀ m ∈ rest, pre.length ≤ self.findIdx (fun x => x.id == m.id) →
        ∃ m' ∈ dedupByIdAux self pre.length rest, m'.id = m.id := by
  intro rest
  induction rest with
  | nil => intro pre _ m h; simp at h
  | cons a rest' ih =>
      intro pre hself m hm hge
      have ha : self.findIdx (fun x => x.id == a.id) ≤ pre.length := by
        rw [hself]
        exact findIdx_append_le _ a (by simp) pre rest'
      rcases List.mem_cons.mp hm with rfl | hm'
      · have hk : self.findIdx (fun x => x.id == m.id) = pre.length :=
          Nat.le_antisymm ha hge
        refine ⟨m, ?_, rfl⟩
        rw [dedupByIdAux, if_pos hk]
        exact List.mem_cons_self m _
      · by_cases h1 : self.findIdx (fun x => x.id == m.id) = pre.length
        · have hfind : self.find? (fun x => x.id == m.id) = some a := by
            rw [hself] at h1 ⊢
            exact find?_of_findIdx_append _ a pre rest' h1
          have hpa : (a.id == m.id) = true :=
            List.find?_some (p := fun x : Movie => x.id == m.id) hfind
          have haid : a.id = m.id := by simpa using hpa
          have hfun : (fun x : Movie => x.id == a.id) = (fun x : Movie => x.id == m.id) := by
            funext x; rw [haid]
          have hk : self.findIdx (fun x => x.id == a.id) = pre.length := by
            rw [hfun]; exact h1
          refine ⟨a, ?_, haid⟩
          rw [dedupByIdAux, if_pos hk]
          exact List.mem_cons_self a _
        · have hge' : (pre ++ [a]).length ≤ self.findIdx (fun x => x.id == m.id) := by
            have : pre.length + 1 ≤ self.findIdx (fun x => x.id == m.id) :=
              Nat.lt_of_le_of_ne hge (fun hc => h1 hc.symm)
            simpa using this
          obtain ⟨m', hm'', heq⟩ :=
            ih (pre ++ [a]) (by simpa using hself) m hm' hge'
          have hm''' : m' ∈ dedupByIdAux self (pre.length + 1) rest' := by
            simpa using hm''
          refine ⟨m', ?_, heq⟩
          rw [dedupByIdAux]
          by_cases hk : self.findIdx (fun x => x.id == a.id) = pre.length
          · rw [if_pos hk]; exact List.mem_cons_of_mem a hm'''
          · rw [if_neg hk]; exact hm'''

/-- C4: the merged (deduplicated) result contains each catalog item identifier
at most once (adjacent-free pairwise distinct ids), every retained element is
the first occurrence of its identifier in concatenation order
(`l.find?` returns exactly it), every input identifier is represented, and the
output is a sublist (stable order) of the input. -/
theorem dedupById_first_seen (l : List Movie) :
    (dedupById l).Pairwise (fun a b => a.id ≠ b.id) ∧
    (∀ m ∈ dedupById l, l.find? (fun x => x.id == m.id) = some m) ∧
    (∀ m ∈ l, ∃ m' ∈ dedupById l, m'.id = m.id) ∧
    List.Sublist (dedupById l) l := by
  refine ⟨dedupByIdAux_pairwise l l 0, ?_, ?_, dedupByIdAux_sublist l l 0⟩
  · intro m hm
    exact dedupByIdAux_mem_first l l [] rfl m hm
  · intro m hm
    exact dedupByIdAux_complete l l [] rfl m hm (Nat.zero_le _)

/-- C4 witness: on the spec's example — two sub-responses both containing an
item with identifier 42 — the merged list retains exactly the first
occurrence. -/
theorem dedupById_first_seen_witness :
    (∀ m ∈ dedupById [⟨42, ['a'], none, none, none⟩, ⟨42, ['b'], none, none, none⟩],
        List.find? (fun x => x.id == m.id)
          [⟨42, ['a'], none, none, none⟩, ⟨42, ['b'], none, none, none⟩] = some m) ∧
    dedupById [⟨42, ['a'], none, none, none⟩, ⟨42, ['b'], none, none, none⟩] =
      [⟨42, ['a'], none, none, none⟩] :=
  ⟨(dedupById_first_seen
      [⟨42, ['a'], none, none, none⟩, ⟨42, ['b'], none, none, none⟩]).2.1,
   by decide⟩

/-! ### Structure of the variation generator's output -/

theorem foldl_append_only {α β : Type} (f : List α → β → List α)
    (hf : ∀ acc b, ∃ ext, f acc b = acc ++ ext) :
    ∀ (l : List β) (acc : List α), ∃ ext, l.foldl f acc = acc ++ ext := by
  intro l
  induction l with
  | nil => intro acc; exact ⟨[], by simp⟩
  | cons b bs ih =>
      intro acc
      obtain ⟨e1, he1⟩ := hf acc b
      obtain ⟨e2, he2⟩ := ih (f acc b)
      exact ⟨e1 ++ e2, by rw [List.foldl_cons, he2, he1, List.append_assoc]⟩

theorem foldl_preserve {α β : Type} (P : List α → Prop) (f : List α → β → List α) :
    ∀ (l : List β), (∀ acc b, b ∈ l → P acc → P (f acc b)) →
      ∀ acc, P acc → P (l.foldl f acc) := by
  intro l
  induction l with
  | nil => intro _ acc h; exact h
  | cons b bs ih =>
      intro hstep acc h
      exact ih (fun a c hc => hstep a c (List.mem_cons_of_mem b hc))
        (f acc b) (hstep acc b (List.mem_cons_self b bs) h)

theorem foldl_mem_of_step {α β : Type} (f : List α → β → List α)
    (hf : ∀ acc b, ∃ ext, f acc b = acc ++ ext) (v : α) (b : β)
    (hb : ∀ acc, v ∈ f acc b) :
    ∀ (l : List β), b ∈ l → ∀ acc, v ∈ l.foldl f acc := by
  intro l
  induction l with
  | nil => intro h; simp at h
  | cons c cs ih =>
      intro hmem acc
      rcases List.mem_cons.mp hmem with rfl | h'
      · rw [List.foldl_cons]
        obtain ⟨ext, hext⟩ := foldl_append_only f hf cs (f acc b)
        rw [hext]
        exact List.mem_append_left _ (hb acc)
      · exact ih h' (f acc c)

theorem varStep_append_only (lowerTerm : List Char) (i : Nat) :
    ∀ acc sub, ∃ ext, varStep lowerTerm i acc sub = acc ++ ext := by
  intro acc sub
  rw [varStep]
  by_cases h : lowerTerm.take i ++ sub ++ lowerTerm.drop (i + 1) ≠ lowerTerm ∧
      ¬ lowerTerm.take i ++ sub ++ lowerTerm.drop (i + 1) ∈ acc
  · exact ⟨_, by rw [if_pos h]⟩
  · exact ⟨[], by rw [if_neg h, List.append_nil]⟩

theorem varScanAt_append_only (lowerTerm : List Char) :
    ∀ acc i, ∃ ext, varScanAt lowerTerm acc i = acc ++ ext := by
  intro acc i
  exact foldl_append_only _ (varStep_append_only lowerTerm i) _ acc

/-- The invariant carried through the variation scan: no duplicates, and every
element other than the seed `term` is the lowercased term with exactly one
position replaced by a registered substitute, and differs from the lowercased
term. -/
def VarInv (term lowerTerm : List Char) (vs : List (List Char)) : Prop :=
  vs.Nodup ∧ ∀ v ∈ vs, v ≠ term →
    v ≠ lowerTerm ∧ ∃ i sub, i < lowerTerm.length ∧
      sub ∈ subsFor (lowerTerm.getD i ' ') ∧
      v = lowerTerm.take i ++ sub ++ lowerTerm.drop (i + 1)

theorem varStep_preserve (term lowerTerm : List Char) (i : Nat) (hi : i < lowerTerm.length) :
    ∀ acc sub, sub ∈ subsFor (lowerTerm.getD i ' ') →
      VarInv term lowerTerm acc → VarInv term lowerTerm (varStep lowerTerm i acc sub) := by
  intro acc sub hsub hinv
  rw [varStep]
  by_cases h : lowerTerm.take i ++ sub ++ lowerTerm.drop (i + 1) ≠ lowerTerm ∧
      ¬ lowerTerm.take i ++ sub ++ lowerTerm.drop (i + 1) ∈ acc
  · rw [if_pos h]
    constructor
    · rw [List.nodup_append]
      exact ⟨hinv.1, List.nodup_singleton _, by simpa using fun hc => h.2 hc⟩
    · intro v hv hvterm
      rcases List.mem_append.mp hv with hv' | hv'
      · exact hinv.2 v hv' hvterm
      · have : v = lowerTerm.take i ++ sub ++ lowerTerm.drop (i + 1) := by simpa using hv'
        subst this
        exact ⟨h.1, i, sub, hi, hsub, rfl⟩
  · rw [if_neg h]; exact hinv

theorem varScanAt_preserve (term lowerTerm : List Char) :
    ∀ acc i, i ∈ List.range lowerTerm.length →
      VarInv term lowerTerm acc → VarInv term lowerTerm (varScanAt lowerTerm acc i) := by
  intro acc i hi hinv
  have hi' : i < lowerTerm.length := List.mem_range.mp hi
  exact foldl_preserve (VarInv term lowerTerm) (varStep lowerTerm i) _
    (fun a sub hsub ha => varStep_preserve term lowerTerm i hi' a sub hsub ha) acc hinv

/-- The candidates of the variation scan in scan order: character positions
of the lowercased term in ascending order and, at each position, the table's
substitutes in table order, each mapped to the full-string candidate with
only that one position replaced. -/
def scanCandidates (lowerTerm : List Char) : List (List Char) :=
  (List.range lowerTerm.length).flatMap (fun i =>
    (subsFor (lowerTerm.getD i ' ')).map (fun sub =>
      lowerTerm.take i ++ sub ++ lowerTerm.drop (i + 1)))

/-- First-seen dedup against an initial seen list: keep the first occurrence
of every element not already seen, preserving the order of the input. -/
def dedupFirstSeen (seen : List (List Char)) : List (List Char) → List (List Char)
  | [] => []
  | c :: rest =>
      if c ∈ seen then dedupFirstSeen seen rest
      else c :: dedupFirstSeen (seen ++ [c]) rest

theorem foldl_varStep_dedup (lowerTerm : List Char) (i : Nat) :
    ∀ (subs : List (List Char)) (vs : List (List Char)),
      subs.foldl (varStep lowerTerm i) vs =
        vs ++ dedupFirstSeen (lowerTerm :: vs)
          (subs.map (fun sub => lowerTerm.take i ++ sub ++ lowerTerm.drop (i + 1))) := by
  intro subs
  induction subs with
  | nil => intro vs; simp [dedupFirstSeen]
  | cons sub rest ih =>
      intro vs
      rw [List.foldl_cons, List.map_cons]
      by_cases h : lowerTerm.take i ++ sub ++ lowerTerm.drop (i + 1) ≠ lowerTerm ∧
          ¬ lowerTerm.take i ++ sub ++ lowerTerm.drop (i + 1) ∈ vs
      · have hstep : varStep lowerTerm i vs sub =
            vs ++ [lowerTerm.take i ++ sub ++ lowerTerm.drop (i + 1)] := by
          simp only [varStep]
          rw [if_pos h]
        have hnotseen : ¬ lowerTerm.take i ++ sub ++ lowerTerm.drop (i + 1) ∈
            lowerTerm :: vs := by
          intro hc
          rcases List.mem_cons.mp hc with hc1 | hc2
          · exact h.1 hc1
          · exact h.2 hc2
        rw [hstep, ih]
        simp only [dedupFirstSeen, if_neg hnotseen]
        rw [← List.cons_append]
        simp [List.append_assoc]
      · have hstep : varStep lowerTerm i vs sub = vs := by
          simp only [varStep]
          rw [if_neg h]
        have hseen : lowerTerm.take i ++ sub ++ lowerTerm.drop (i + 1) ∈ lowerTerm :: vs := by
          rcases Decidable.not_and_iff_or_not.mp h with h1 | h2
          · exact List.mem_cons.mpr (Or.inl (by simpa using h1))
          · exact List.mem_cons.mpr (Or.inr (by simpa using h2))
        rw [hstep, ih]
        simp only [dedupFirstSeen, if_pos hseen]

theorem dedupFirstSeen_append (ys : List (List Char)) :
    ∀ (xs seen : List (List Char)),
      dedupFirstSeen seen (xs ++ ys) =
        dedupFirstSeen seen xs ++
          dedupFirstSeen (seen ++ dedupFirstSeen seen xs) ys := by
  intro xs
  induction xs with
  | nil => intro seen; simp [dedupFirstSeen]
  | cons c xs ih =>
      intro seen
      by_cases hc : c ∈ seen
      · rw [List.cons_append]
        simp only [dedupFirstSeen, if_pos hc]
        exact ih seen
      · rw [List.cons_append]
        simp only [dedupFirstSeen, if_neg hc]
        rw [ih (seen ++ [c]), List.cons_append]
        simp [List.append_assoc]

theorem foldl_varScanAt_dedup (lowerTerm : List Char) :
    ∀ (idxs : List Nat) (vs : List (List Char)),
      idxs.foldl (varScanAt lowerTerm) vs =
        vs ++ dedupFirstSeen (lowerTerm :: vs) (idxs.flatMap (fun i =>
          (subsFor (lowerTerm.getD i ' ')).map (fun sub =>
            lowerTerm.take i ++ sub ++ lowerTerm.drop (i + 1)))) := by
  intro idxs
  induction idxs with
  | nil => intro vs; simp [dedupFirstSeen]
  | cons i rest ih =>
      intro vs
      rw [List.foldl_cons]
      have hscan : varScanAt lowerTerm vs i =
          vs ++ dedupFirstSeen (lowerTerm :: vs)
            ((subsFor (lowerTerm.getD i ' ')).map (fun sub =>
              lowerTerm.take i ++ sub ++ lowerTerm.drop (i + 1))) :=
        foldl_varStep_dedup lowerTerm i _ vs
      rw [hscan, ih]
      rw [List.flatMap_cons, dedupFirstSeen_append]
      rw [← List.cons_append]
      simp [List.append_assoc]

/-- C9: `generateSearchVariations term` is exactly `term` followed by the
scan's candidates in first-appearance order: scanning the positions of the
lowercased term in ascending order and the applicable table substitutes in
table order (single-character lookup), each candidate has only that one
position replaced, and a candidate already seen (including the lowercased
original and the seed `term`) is skipped — so the head is `term`, there are
no duplicates, every other element is a one-position substitution differing
from the lowercased original, and every applicable substitution differing
from the lowercased original appears. -/
theorem generateSearchVariations_first_seen_order (term : List Char) :
    generateSearchVariations term =
      term :: dedupFirstSeen [toLowerStr term, term] (scanCandidates (toLowerStr term)) ∧
    (generateSearchVariations term).head? = some term ∧
    (generateSearchVariations term).Nodup ∧
    (∀ v ∈ generateSearchVariations term, v ≠ term →
      v ≠ toLowerStr term ∧ ∃ i sub, i < (toLowerStr term).length ∧
        sub ∈ subsFor ((toLowerStr term).getD i ' ') ∧
        v = (toLowerStr term).take i ++ sub ++ (toLowerStr term).drop (i + 1)) ∧
    (∀ i sub, i < (toLowerStr term).length →
      sub ∈ subsFor ((toLowerStr term).getD i ' ') →
      (toLowerStr term).take i ++ sub ++ (toLowerStr term).drop (i + 1) ≠ toLowerStr term →
      (toLowerStr term).take i ++ sub ++ (toLowerStr term).drop (i + 1) ∈
        generateSearchVariations term) := by
  have hgen : generateSearchVariations term =
      (List.range (toLowerStr term).length).foldl (varScanAt (toLowerStr term)) [term] := rfl
  have hinv : VarInv term (toLowerStr term) (generateSearchVariations term) := by
    rw [hgen]
    exact foldl_preserve (VarInv term (toLowerStr term)) (varScanAt (toLowerStr term)) _
      (fun acc i hi ha => varScanAt_preserve term (toLowerStr term) acc i hi ha)
      [term] ⟨List.nodup_singleton term, by
        intro v hv hvne
        exact absurd (List.mem_singleton.mp hv) hvne⟩
  refine ⟨?_, ?_, hinv.1, hinv.2, ?_⟩
  · rw [hgen, foldl_varScanAt_dedup (toLowerStr term) (List.range (toLowerStr term).length)
      [term]]
    rfl
  · rw [hgen]
    obtain ⟨ext, hext⟩ := foldl_append_only (varScanAt (toLowerStr term))
      (fun acc i => varScanAt_append_only (toLowerStr term) acc i) _ [term]
    rw [hext]
    rfl
  · intro i sub hi hsub hne
    rw [hgen]
    refine foldl_mem_of_step (varScanAt (toLowerStr term))
      (fun acc j => varScanAt_append_only (toLowerStr term) acc j) _ i ?_
      (List.range (toLowerStr term).length) (List.mem_range.mpr hi) [term]
    intro acc
    refine foldl_mem_of_step (varStep (toLowerStr term) i)
      (varStep_append_only (toLowerStr term) i) _ sub ?_
      (subsFor ((toLowerStr term).getD i ' ')) hsub acc
    intro acc2
    rw [varStep]
    by_cases h : (toLowerStr term).take i ++ sub ++ (toLowerStr term).drop (i + 1) ≠
        toLowerStr term ∧
        ¬ (toLowerStr term).take i ++ sub ++ (toLowerStr term).drop (i + 1) ∈ acc2
    · rw [if_pos h]
      exact List.mem_append_right _ (List.mem_singleton.mpr rfl)
    · rw [if_neg h]
      rcases Decidable.not_and_iff_or_not.mp h with h1 | h2
      · exact absurd hne (by simpa using h1)
      · simpa using h2

/-- C9 witness: for the concrete term "ab" the output is exactly
`["ab", "eb", "ib"]` — the term first, then the candidates of positions 0 and
1 in scan order with first-appearance dedup — and the applicable substitution
a→e at position 0 is in the output via the completeness conjunct. -/
theorem generateSearchVariations_first_seen_order_witness :
    generateSearchVariations ['a', 'b'] = [['a', 'b'], ['e', 'b'], ['i', 'b']] ∧
    ['e', 'b'] ∈ generateSearchVariations ['a', 'b'] := by
  constructor
  · rw [(generateSearchVariations_first_seen_order ['a', 'b']).1]
    decide
  · have h := (generateSearchVariations_first_seen_order ['a', 'b']).2.2.2.2 0 ['e']
      (by decide) (by decide) (by decide)
    have he : (toLowerStr ['a', 'b']).take 0 ++ ['e'] ++ (toLowerStr ['a', 'b']).drop (0 + 1) =
        ['e', 'b'] := by decide
    rw [he] at h
    exact h

/-! ### The dispatched batch -/

/-- C6: for every non-empty query, the dispatched batch consists exactly of:
one request for the preprocessed (normalized) query; up to 3 requests for the
2nd through 4th generated variations (`slice(1, 4)`); one request per
space-delimited word if and only if the preprocessed query contains a space;
and one request for its first 3 characters — in that order. -/
theorem searchRequests_batch (query : List Char) (_hq : query ≠ []) :
    searchRequests query =
      [preprocessSearchTerm query] ++
        ((generateSearchVariations (preprocessSearchTerm query)).drop 1).take 3 ++
        (if (preprocessSearchTerm query).contains ' '
          then jsSplit ' ' (preprocessSearchTerm query) else []) ++
        [(preprocessSearchTerm query).take 3] ∧
    (((generateSearchVariations (preprocessSearchTerm query)).drop 1).take 3).length ≤ 3 := by
  constructor
  · rw [searchRequests]
    have hslice : ∀ (v : List (List Char)), jsSlice 1 4 v = (v.drop 1).take 3 := by
      intro v
      cases v with
      | nil => rfl
      | cons x rest => rfl
    rw [hslice]
  · exact List.length_take_le _ _

/-- C6 witness: the spec's multi-word example "iron man" — no table
correction applies, the batch has the query, three variations, the two
per-word requests "iron" and "man", and the 3-character fallback "iro". -/
theorem searchRequests_batch_witness :
    ("iron man".toList ≠ ([] : List Char)) ∧
    searchRequests "iron man".toList =
      ["iron man".toList, "eron man".toList, "aron man".toList, "irun man".toList,
        "iron".toList, "man".toList, "iro".toList] := by
  refine ⟨by decide, ?_⟩
  rw [(searchRequests_batch "iron man".toList (by decide)).1]
  decide

/-! ### Ranked output: bounded and sorted -/

theorem rankedResults_length_le (query : List Char) (responses : List FetchResult) :
    (rankedResults query responses).length ≤ 20 :=
  List.length_take_le _ _

theorem rankedResults_sorted (query : List Char) (responses : List FetchResult) :
    (rankedResults query responses).Pairwise scoreGE := by
  have hs := List.sorted_insertionSort scoreGE
    ((dedupById (gatherResults responses)).map
      (fun movie => (movie, (calculateRelevanceScore movie query).getD 0)))
  exact hs.take

/-- C1: whenever the non-empty-query pipeline delivers a ranked result list,
that list has length at most 20 and is sorted descending by the attached
relevance score: for adjacent `a` before `b`, `score b ≤ score a`. -/
theorem fetchMovies_output_bounded_sorted (query : List Char)
    (env : List Char → FetchResult) (discoverResp : FetchResult)
    (counterFails : Bool) (l : List (Movie × ℚ))
    (hq : query ≠ [])
    (hres : (fetchMovies query env discoverResp counterFails).1 = .searchResults l) :
    l.length ≤ 20 ∧ l.Pairwise (fun a b => b.2 ≤ a.2) := by
  have hpair : ∀ (m : List (Movie × ℚ)), m.Pairwise scoreGE →
      m.Pairwise (fun a b => b.2 ≤ a.2) := fun m h => h
  rw [fetchMovies, if_neg hq] at hres
  by_cases herr : ((searchRequests query).map env).any FetchResult.isTransportError = true
  · rw [if_pos herr] at hres
    simp at hres
  · rw [if_neg herr] at hres
    simp only [SearchOutcome.searchResults.injEq] at hres
    subst hres
    exact ⟨rankedResults_length_le _ _, hpair _ (rankedResults_sorted _ _)⟩

/-- C1 witness: concrete run (all sub-requests fail by status, so the
delivered ranked list is empty, trivially bounded and sorted). -/
theorem fetchMovies_output_bounded_sorted_witness :
    (([] : List (Movie × ℚ)).length ≤ 20 ∧
      ([] : List (Movie × ℚ)).Pairwise (fun a b : Movie × ℚ => b.2 ≤ a.2)) :=
  fetchMovies_output_bounded_sorted ['a', 'b'] (fun _ => .resp false none)
    (.resp true none) false [] (by decide) (by decide)

/-! ### Failure handling of the batch -/

theorem foldl_gatherStep_all_failed :
    ∀ (responses : List FetchResult),
      (∀ r ∈ responses, r.isStatusFailure = true) →
      ∀ acc, responses.foldl gatherStep acc = acc := by
  intro responses
  induction responses with
  | nil => intro _ acc; rfl
  | cons r rs ih =>
      intro h acc
      have hr : gatherStep acc r = acc := by
        have := h r (List.mem_cons_self r rs)
        cases r with
        | transport => rfl
        | resp ok results =>
            cases ok with
            | false => cases results <;> rfl
            | true => exact absurd this (by simp [FetchResult.isStatusFailure])
      rw [List.foldl_cons, hr]
      exact ih (fun x hx => h x (List.mem_cons_of_mem r hx)) acc

/-- C2 counterexample: with a non-empty query and every sub-request failing
at transport level, `Promise.all` rejects, the catch block runs, and the
outcome is the error message — a `SearchFailure` — not an empty ranked list. -/
theorem fetchMovies_transport_failure_counterexample :
    fetchMovies ['a', 'b'] (fun _ => .transport) (.resp true none) false =
      (.failure errorText, none) ∧
    (fetchMovies ['a', 'b'] (fun _ => .transport) (.resp true none) false).1 ≠
      .searchResults [] := by
  refine ⟨by decide, by decide⟩

/-- C2 (amended): if the query is non-empty and every dispatched sub-request
fails with a non-success status, the search completes with an empty
`RankedResultList` and no error — no status failure aborts the batch.  (A
transport-level rejection, by contrast, aborts the whole batch via
`Promise.all` and surfaces as a `SearchFailure`; see the counterexample.) -/
theorem fetchMovies_all_status_failures_empty (query : List Char)
    (env : List Char → FetchResult) (discoverResp : FetchResult) (counterFails : Bool)
    (hq : query ≠ [])
    (hfail : ∀ r ∈ searchRequests query, (env r).isStatusFailure = true) :
    fetchMovies query env discoverResp counterFails = (.searchResults [], none) := by
  have hresp : ∀ r ∈ (searchRequests query).map env, r.isStatusFailure = true := by
    intro r hr
    obtain ⟨q, hq', rfl⟩ := List.mem_map.mp hr
    exact hfail q hq'
  have hnot : ¬ ((searchRequests query).map env).any FetchResult.isTransportError = true := by
    intro hc
    obtain ⟨r, hr, hrt⟩ := List.any_eq_true.mp hc
    have := hresp r hr
    cases r <;> simp_all [FetchResult.isStatusFailure, FetchResult.isTransportError]
  have hranked : rankedResults query ((searchRequests query).map env) = [] := by
    rw [rankedResults, gatherResults, foldl_gatherStep_all_failed _ hresp []]
    rfl
  rw [fetchMovies, if_neg hq, if_neg hnot, hranked]
  rfl

/-- C2 witness: concrete non-empty query with every sub-request answering a
non-success status: the outcome is the empty ranked list, no error. -/
theorem fetchMovies_all_status_failures_empty_witness :
    fetchMovies ['a', 'b'] (fun _ => .resp false none) (.resp true none) false =
      (.searchResults [], none) :=
  fetchMovies_all_status_failures_empty ['a', 'b'] (fun _ => .resp false none)
    (.resp true none) false (by decide) (by decide)

/-! ### The counting collaborator never disturbs the result -/

/-- C3: on a non-empty query whose batch settles without transport error and
whose final ranked list is non-empty, the delivered outcome is the ranked
list itself regardless of whether the counting collaborator call fails, and
a failing call is merely recorded as logged — no error is surfaced and the
ranked result is unchanged.  (`updateSearchCount` is modelled from the spec:
it swallows its own failures; see its definition.) -/
theorem fetchMovies_counter_failure_swallowed (query : List Char)
    (env : List Char → FetchResult) (discoverResp : FetchResult)
    (hq : query ≠ [])
    (hnoerr : ((searchRequests query).map env).any FetchResult.isTransportError = false)
    (hne : rankedResults query ((searchRequests query).map env) ≠ []) :
    (∀ counterFails : Bool, (fetchMovies query env discoverResp counterFails).1 =
      .searchResults (rankedResults query ((searchRequests query).map env))) ∧
    (fetchMovies query env discoverResp true).2 = some .failureLogged := by
  have hnot : ¬ ((searchRequests query).map env).any FetchResult.isTransportError = true := by
    rw [hnoerr]; simp
  obtain ⟨top, rest, htr⟩ := List.exists_cons_of_ne_nil hne
  constructor
  · intro counterFails
    rw [fetchMovies, if_neg hq, if_neg hnot]
  · simp only [fetchMovies, if_neg hq, if_neg hnot]
    show counterCall true query (rankedResults query ((searchRequests query).map env)) =
      some CounterResult.failureLogged
    rw [htr]
    rfl

/-- C3 witness: a concrete search whose ranked list is non-empty, run with
the counter call failing: the outcome is still the ranked list, and the
counter failure is only logged. -/
theorem fetchMovies_counter_failure_swallowed_witness :
    ((fetchMovies ['a', 'b']
        (fun _ => .resp true (some [⟨1, ['a', 'b'], none, none, none⟩]))
        (.resp true none) true).1 =
      .searchResults (rankedResults ['a', 'b']
        ((searchRequests ['a', 'b']).map
          (fun _ => .resp true (some [⟨1, ['a', 'b'], none, none, none⟩]))))) ∧
    (fetchMovies ['a', 'b']
        (fun _ => .resp true (some [⟨1, ['a', 'b'], none, none, none⟩]))
        (.resp true none) true).2 = some .failureLogged :=
  ⟨(fetchMovies_counter_failure_swallowed ['a', 'b']
      (fun _ => .resp true (some [⟨1, ['a', 'b'], none, none, none⟩]))
      (.resp true none) (by decide) (by decide) (by decide)).1 true,
   (fetchMovies_counter_failure_swallowed ['a', 'b']
      (fun _ => .resp true (some [⟨1, ['a', 'b'], none, none, none⟩]))
      (.resp true none) (by decide) (by decide) (by decide)).2⟩

/-! ### The exact-match floor of the scorer -/

theorem foldl_ge_init {α : Type} (f : ℚ → α → ℚ) (h : ∀ a x, a ≤ f a x) :
    ∀ (l : List α) (a : ℚ), a ≤ l.foldl f a := by
  intro l
  induction l with
  | nil => intro a; simp
  | cons x xs ih => intro a; exact le_trans (h a x) (ih (f a x))

theorem bestWordScore_nonneg (t q : List Char) : 0 ≤ bestWordScore t q := by
  refine foldl_ge_init _ ?_ (jsSplit ' ' t) 0
  intro a tw
  refine foldl_ge_init _ ?_ (jsSplit ' ' q) a
  intro a2 qw
  cases hs : similarityRatio tw qw with
  | none => exact le_refl a2
  | some sim =>
      by_cases hlt : (3 : ℚ) / 5 < sim
      · simp only [if_pos hlt]
        exact le_max_left _ _
      · simp only [if_neg hlt]
        exact le_refl a2

theorem titleSimScore_nonneg (t q : List Char) : 0 ≤ titleSimScore t q := by
  rw [titleSimScore]
  cases hs : similarityRatio t q with
  | none => exact le_refl 0
  | some sim =>
      by_cases hlt : (1 : ℚ) / 2 < sim
      · simp only [if_pos hlt]
        have h0 : (0 : ℚ) ≤ sim := le_trans (by norm_num) (le_of_lt hlt)
        exact mul_nonneg h0 (by norm_num)
      · simp only [if_neg hlt]
        exact le_refl 0

theorem calculateFuzzyScore_nonneg (t q : List Char) : 0 ≤ calculateFuzzyScore t q :=
  div_nonneg (Nat.cast_nonneg _) (Nat.cast_nonneg _)

theorem popularityScore_nonneg (movie : Movie) (hva : 0 ≤ movie.vote_average.getD 0) :
    0 ≤ popularityScore movie := by
  have h2 : (0 : ℚ) ≤ min ((movie.vote_count.getD 0 : ℚ) / 1000) 5 :=
    le_min (div_nonneg (Nat.cast_nonneg _) (by norm_num)) (by norm_num)
  have h1 : (0 : ℚ) ≤ movie.vote_average.getD 0 * 1 := by simpa using hva
  simpa [popularityScore] using add_nonneg h1 h2

theorem isPrefixOf_self (l : List Char) : l.isPrefixOf l = true := by
  induction l with
  | nil => rfl
  | cons x xs ih => simp [List.isPrefixOf, ih]

theorem jsIncludes_self (l : List Char) : jsIncludes l l = true := by
  rw [jsIncludes.eq_def, isPrefixOf_self, Bool.true_or]

/-- C5 counterexample: for the item with empty title and the empty query the
titles match case-insensitively, yet the score is NaN (the fuzzy term divides
by the query length 0) — not a number `≥ 100`. -/
theorem calculateRelevanceScore_empty_query_counterexample :
    calculateRelevanceScore ⟨0, [], none, none, none⟩ [] = none ∧
    ¬ ∃ s : ℚ, calculateRelevanceScore ⟨0, [], none, none, none⟩ [] = some s ∧ 100 ≤ s := by
  refine ⟨rfl, ?_⟩
  rintro ⟨s, hs, -⟩
  rw [show calculateRelevanceScore ⟨0, [], none, none, none⟩ [] = none from rfl] at hs
  exact Option.noConfusion hs

/-- C5 (amended): for every catalog item whose rating is non-negative (the
catalog's 0-10 range, matching the claim's "all other contributions ≥ 0")
and every NON-EMPTY query whose lowercasing equals the lowercased title, the
score is a number `≥ 100`: the exact-match bonus is a floor and every other
contribution is non-negative. -/
theorem calculateRelevanceScore_exact_match_floor (movie : Movie) (query : List Char)
    (hq : query ≠ [])
    (hexact : toLowerStr movie.title = toLowerStr query)
    (hva : 0 ≤ movie.vote_average.getD 0) :
    ∃ s, calculateRelevanceScore movie query = some s ∧ 100 ≤ s := by
  have hlen : ¬ (toLowerStr query).length = 0 := by
    cases query with
    | nil => exact absurd rfl hq
    | cons c cs => simp [toLowerStr]
  rw [calculateRelevanceScore, if_neg hlen]
  refine ⟨_, rfl, ?_⟩
  rw [hexact, if_pos rfl, if_pos (jsIncludes_self _), if_pos (isPrefixOf_self _)]
  have h4 : (0 : ℚ) ≤
      (if jsIncludes (toLowerStr (movie.overview.getD [])) (toLowerStr query)
        then (30 : ℚ) else 0) := by
    split
    · norm_num
    · exact le_refl 0
  have h5 := bestWordScore_nonneg (toLowerStr query) (toLowerStr query)
  have h6 := titleSimScore_nonneg (toLowerStr query) (toLowerStr query)
  have h7 : (0 : ℚ) ≤ calculateFuzzyScore (toLowerStr query) (toLowerStr query) * 20 :=
    mul_nonneg (calculateFuzzyScore_nonneg _ _) (by norm_num)
  have h8 := popularityScore_nonneg movie hva
  linarith

/-- C5 witness: a concrete item whose title equals the (non-empty) query
case-insensitively scores at least 100. -/
theorem calculateRelevanceScore_exact_match_floor_witness :
    ∃ s, calculateRelevanceScore ⟨1, ['A', 'b'], none, some 5, none⟩ ['a', 'B'] = some s ∧
      100 ≤ s :=
  calculateRelevanceScore_exact_match_floor ⟨1, ['A', 'b'], none, some 5, none⟩ ['a', 'B']
    (by decide) (by decide) (by decide)

/-! ### The empty/empty similarity ratio -/

/-- C7: on the empty/empty pair the source's similarity ratio is `(0 - 0) / 0`
— a division by zero, NaN in JS (`none` here) — not the `1.0` the spec
requires; the scorer's `>`-threshold then treats it as a failed match
(contribution 0). -/
theorem similarityRatio_empty_empty_nan :
    similarityRatio [] [] = none ∧
    similarityRatio [] [] ≠ some 1 ∧
    titleSimScore [] [] = 0 := by
  refine ⟨rfl, by simp [similarityRatio], rfl⟩

/-! ### Defaulting of absent catalog item fields -/

/-- C8 counterexample: an absent `title` does not default to the empty
string — the scorer faults (TypeError at `movie.title.toLowerCase()`,
App.jsx line 233), unlike `overview` and the vote fields. -/
theorem calculateRelevanceScoreJs_missing_title_faults :
    calculateRelevanceScoreJs none (some ['x']) (some 1) (some 1) ['a'] =
      .error "TypeError: cannot read toLowerCase of undefined" := rfl

/-- C8 (amended): when `title` is present (the data model requires it), the
scorer never faults, and absent `overview`, `vote_average` and `vote_count`
default to the empty string, 0 and 0 respectively. -/
theorem calculateRelevanceScoreJs_defaults (t query : List Char) :
    calculateRelevanceScoreJs (some t) none none none query =
      calculateRelevanceScoreJs (some t) (some []) (some 0) (some 0) query ∧
    calculateRelevanceScoreJs (some t) none none none query =
      .ok (calculateRelevanceScore ⟨0, t, none, none, none⟩ query) :=
  ⟨rfl, rfl⟩

end MoviesDB
